import Mathlib

/-!
Verification development for the answer-formatting pipeline of
`src/llm.py` (homework-solution bot).  The pure text-processing
functions `format_math_expression` (with its inner brace walker
`process_braces`), `extract_latex_blocks`, `format_line_message` and
`format_solution` are shallowly embedded over `List Char`; machine
strings are modelled as lists of characters (ASCII whitespace model for
Python's `str.strip`).
-/

namespace LlmPy

/-- Whitespace test modelling Python's `str.strip()` default set
(ASCII fragment: space, tab, newline, carriage return, vertical tab,
form feed). -/
def pyIsSpace (c : Char) : Bool :=
  c = ' ' || c = '\t' || c = '\n' || c = '\r' || c = '\x0b' || c = '\x0c'

/-- Left strip, modelling Python `str.lstrip()`. -/
def lstripL (l : List Char) : List Char := l.dropWhile pyIsSpace

/-- Full strip, modelling Python `str.strip()`: drop whitespace from
both ends. -/
def stripL (l : List Char) : List Char :=
  ((l.dropWhile pyIsSpace).reverse.dropWhile pyIsSpace).reverse

/-- Test that `p` is a prefix of `l`, modelling Python `str.startswith`. -/
def leadsWith : List Char → List Char → Bool
  | [], _ => true
  | _ :: _, [] => false
  | p :: ps, c :: cs => p = c && leadsWith ps cs

/-- Test that `p` is a suffix of `l`, modelling Python `str.endswith`. -/
def trailsWith (p l : List Char) : Bool :=
  leadsWith p.reverse l.reverse

/-- Scanner for Python `str.replace(old, new)` (all occurrences,
left to right, non-overlapping): the `Nat` argument is the number of
characters still to be skipped after an emitted replacement. -/
def pyRepGo (old new : List Char) : Nat → List Char → List Char
  | _, [] => []
  | n + 1, _ :: cs => pyRepGo old new n cs
  | 0, c :: cs =>
      if old ≠ [] ∧ leadsWith old (c :: cs) then
        new ++ pyRepGo old new (old.length - 1) cs
      else
        c :: pyRepGo old new 0 cs

/-- Python `s.replace(old, new)` for non-empty `old`. -/
def pyReplace (s old new : List Char) : List Char := pyRepGo old new 0 s

theorem length_dropWhile_le (p : Char → Bool) (l : List Char) :
    (l.dropWhile p).length ≤ l.length := by
  induction l with
  | nil => simp [List.dropWhile]
  | cons c cs ih =>
      simp only [List.dropWhile]
      split
      · simp only [List.length_cons]
        omega
      · simp

/-- Brace-level update of the scanning loops in `process_braces`:
increment on an opening brace, decrement on a closing brace. -/
def lvlStep (level : Nat) (c : Char) : Nat :=
  if c = '{' then level + 1 else if c = '}' then level - 1 else level

/-- Brace-group scanner of `process_braces`: starting at nesting level
`level`, consume characters (updating the level with `lvlStep`) until
the level reaches zero or the input ends; return the consumed
characters (including the final closing brace when one is found) and
the remaining input.  This models the inner `while i < len(expr) and
brace_level > 0` loops of `src/llm.py`. -/
def grab (level : Nat) : List Char → List Char × List Char
  | [] => ([], [])
  | c :: cs =>
      if lvlStep level c = 0 then ([c], cs)
      else
        ((c :: (grab (lvlStep level c) cs).1), (grab (lvlStep level c) cs).2)

theorem grab_append (level : Nat) (l : List Char) :
    (grab level l).1 ++ (grab level l).2 = l := by
  induction l generalizing level with
  | nil => simp [grab]
  | cons c cs ih =>
      rw [grab]
      split
      · simp
      · simpa using ih _

theorem grab_fst_length_le (level : Nat) (l : List Char) :
    (grab level l).1.length ≤ l.length := by
  have h := grab_append level l
  have := congrArg List.length h
  simp only [List.length_append] at this
  omega

theorem grab_snd_length_le (level : Nat) (l : List Char) :
    (grab level l).2.length ≤ l.length := by
  have h := grab_append level l
  have := congrArg List.length h
  simp only [List.length_append] at this
  omega

/-- LaTeX command constant `\frac`. -/
def fracCmd : List Char := ['\\', 'f', 'r', 'a', 'c']

/-- LaTeX command constant `\sqrt`. -/
def sqrtCmd : List Char := ['\\', 's', 'q', 'r', 't']

/-- Shallow embedding of the recursive walker `process_braces` from
`format_math_expression` in `src/llm.py`.  The first argument is the
pending `current_cmd`; the second is the remaining input.  Faithful
points: a backslash begins a command only when it is not the last
character; the command is the backslash plus the maximal alphabetic
run; a `\frac` brace group takes numerator and denominator via the
brace-level scan (each dropping the last consumed character, which is
the closing brace when the group is terminated); a `\sqrt` group is
rendered as `√(...)`; any other brace group is skipped wholesale with
`current_cmd` left unchanged; every other character is emitted and
resets `current_cmd`. -/
def pb : List Char → List Char → List Char
  | _, [] => []
  | cmd, c :: cs =>
      if c = '\\' ∧ cs ≠ [] then
        pb ('\\' :: cs.takeWhile Char.isAlpha) (cs.dropWhile Char.isAlpha)
      else if c = '{' then
        if cmd = fracCmd then
          match h12 : (grab 1 cs).2 with
          | '{' :: cs2 =>
              ('(' :: pb [] (grab 1 cs).1.dropLast)
                ++ (')' :: '/' :: '(' :: pb [] (grab 1 cs2).1.dropLast)
                ++ (')' :: pb [] (grab 1 cs2).2)
          | rest => pb [] rest
        else if cmd = sqrtCmd then
          '√' :: '(' :: (pb [] (grab 1 cs).1.dropLast
            ++ (')' :: pb [] (grab 1 cs).2))
        else
          pb cmd (grab 1 cs).2
      else
        c :: pb [] cs
  termination_by _ l => l.length
  decreasing_by
  all_goals simp_wf
  · have := length_dropWhile_le Char.isAlpha cs
    omega
  · have h1 := grab_fst_length_le 1 cs
    have h2 := List.length_dropLast (grab 1 cs).1
    omega
  · have h1 := grab_snd_length_le 1 cs
    have h2 := grab_fst_length_le 1 cs2
    have h3 : (grab 1 cs).2.length = cs2.length + 1 := by
      rw [h12]; simp
    have h4 := List.length_dropLast (grab 1 cs2).1
    omega
  · have h1 := grab_snd_length_le 1 cs
    have h2 := grab_snd_length_le 1 cs2
    have h3 : (grab 1 cs).2.length = cs2.length + 1 := by
      rw [h12]; simp
    omega
  · have h1 := grab_snd_length_le 1 cs
    have h2 : (grab 1 cs).2.length = rest.length := by rw [h12]
    omega
  · have h1 := grab_fst_length_le 1 cs
    have h2 := List.length_dropLast (grab 1 cs).1
    omega
  · have := grab_snd_length_le 1 cs
    omega
  · have := grab_snd_length_le 1 cs
    omega

/-- Delimiter stripping step of `format_math_expression`: after the
initial `strip()`, a leading `\[` with trailing `\]` (or leading `\(`
with trailing `\)`) is removed and the remainder stripped again. -/
def fmeDelim (l : List Char) : List Char :=
  if leadsWith ['\\', '['] l && trailsWith ['\\', ']'] l then
    stripL ((l.drop 2).dropLast.dropLast)
  else if leadsWith ['\\', '('] l && trailsWith ['\\', ')'] l then
    stripL ((l.drop 2).dropLast.dropLast)
  else l

/-- Ordered symbol-substitution table of `format_math_expression`
(Python dict in insertion order). -/
def reps : List (List Char × List Char) :=
  [ ("\\times".toList, ['×']), ("\\div".toList, ['÷']),
    ("\\le".toList, ['≤']), ("\\ge".toList, ['≥']),
    ("\\neq".toList, ['≠']), ("\\approx".toList, ['≈']),
    ("\\pm".toList, ['±']), ("\\cdot".toList, ['·']),
    (['_'], ['ₓ']), (['^'], ['ⁿ']) ]

/-- Sequential application of the symbol substitutions. -/
def applyReps (l : List Char) : List Char :=
  reps.foldl (fun acc pr => pyReplace acc pr.1 pr.2) l

/-- Shallow embedding of `format_math_expression` from `src/llm.py`:
strip, remove one pair of math delimiters, apply the substitution
table, then run the recursive brace walker. -/
def format_math_expression (latex : List Char) : List Char :=
  pb [] (applyReps (fmeDelim (stripL latex)))

/-- Balanced brace strings: every prefix has at least as many opening
braces as closing ones and the total counts agree.  Grammar form:
empty, a non-brace character followed by a balanced string, or a
braced balanced group followed by a balanced string. -/
inductive Bal : List Char → Prop
  | nil : Bal []
  | other {c : Char} {s : List Char} :
      c ≠ '{' → c ≠ '}' → Bal s → Bal (c :: s)
  | brace {s t : List Char} : Bal s → Bal t → Bal ('{' :: (s ++ '}' :: t))

theorem grab_bal {s : List Char} (hs : Bal s) :
    ∀ (n : Nat) (r : List Char), 1 ≤ n →
      grab n (s ++ r) = (s ++ (grab n r).1, (grab n r).2) := by
  induction hs with
  | nil => intro n r _; simp
  | @other c s' hc1 hc2 _ ih =>
      intro n r hn
      have hstep : lvlStep n c = n := by simp [lvlStep, hc1, hc2]
      rw [List.cons_append, grab, hstep]
      have hn0 : ¬ n = 0 := by omega
      simp only [hn0, if_false]
      rw [ih n r hn]
      simp
  | @brace s' t _ _ ihs iht =>
      intro n r hn
      have h1 : ('{' :: (s' ++ '}' :: t)) ++ r = '{' :: (s' ++ ('}' :: (t ++ r))) := by
        simp
      rw [h1, grab]
      have hstep : lvlStep n '{' = n + 1 := by simp [lvlStep]
      rw [hstep]
      have hne : ¬ n + 1 = 0 := by omega
      simp only [hne, if_false]
      rw [ihs (n + 1) ('}' :: (t ++ r)) (by omega)]
      rw [grab]
      have hstep2 : lvlStep (n + 1) '}' = n := by
        simp [lvlStep]
      rw [hstep2]
      have hn0 : ¬ n = 0 := by omega
      simp only [hn0, if_false]
      rw [iht n r hn]
      simp

/-- Key scan property: on a balanced group body followed by its
closing brace, the level-1 scan consumes exactly through that brace. -/
theorem grab_closed {s : List Char} (hs : Bal s) (r : List Char) :
    grab 1 (s ++ '}' :: r) = (s ++ ['}'], r) := by
  rw [grab_bal hs 1 ('}' :: r) (by omega), grab]
  simp [lvlStep]

/-- Unterminated-brace condition: scanning from `level`, the level
never returns to zero anywhere in the input. -/
def neverCloses : Nat → List Char → Bool
  | _, [] => true
  | level, c :: cs => lvlStep level c ≠ 0 && neverCloses (lvlStep level c) cs

theorem grab_never {u : List Char} :
    ∀ {level : Nat}, neverCloses level u = true → grab level u = (u, []) := by
  induction u with
  | nil => intro level _; simp [grab]
  | cons c cs ih =>
      intro level h
      rw [neverCloses] at h
      simp only [Bool.and_eq_true, decide_eq_true_eq, bne_iff_ne, ne_eq] at h
      rw [grab]
      simp only [h.1, if_false]
      rw [ih h.2]

/-- Characters outside any command or brace context pass through the
walker unchanged (and reset `current_cmd`). -/
theorem pb_plain {t : List Char} (ht : ∀ c ∈ t, c ≠ '\\' ∧ c ≠ '{') :
    ∀ r : List Char, pb [] (t ++ r) = t ++ pb [] r := by
  induction t with
  | nil => intro r; simp
  | cons c ts ih =>
      intro r
      have hc := ht c (by simp)
      rw [List.cons_append, pb]
      have h1 : ¬ (c = '\\' ∧ (ts ++ r) ≠ []) := by
        intro h; exact hc.1 h.1
      simp only [h1, if_false, hc.2, if_false]
      rw [ih (fun c hc => ht c (by simp [hc])) r]
      simp

/-- Walker rule for `\frac{NUM}{DEN}` with balanced numerator and
denominator: it renders `(NUM)/(DEN)` with both parts recursively
processed, then continues on the rest. -/
theorem pb_frac (NUM DEN r : List Char) (hN : Bal NUM) (hD : Bal DEN) :
    pb [] ('\\' :: 'f' :: 'r' :: 'a' :: 'c' :: '{' :: (NUM ++ '}' :: '{' :: (DEN ++ '}' :: r)))
      = ('(' :: pb [] NUM) ++ (')' :: '/' :: '(' :: pb [] DEN) ++ (')' :: pb [] r) := by
  rw [pb]
  have ha : Char.isAlpha 'f' = true := by decide
  have hb : Char.isAlpha 'r' = true := by decide
  have hc : Char.isAlpha 'a' = true := by decide
  have hd : Char.isAlpha 'c' = true := by decide
  have he : Char.isAlpha '{' = false := by decide
  simp only [List.takeWhile, List.dropWhile, ha, hb, hc, hd, he, ne_eq,
    reduceCtorEq, not_false_eq_true, and_self, if_true, if_false]
  rw [pb]
  simp only [grab_closed hN, grab_closed hD, fracCmd, List.dropLast_concat,
    ne_eq, reduceCtorEq, not_false_eq_true, and_self, if_true, if_false,
    List.cons_ne_nil, and_true, and_false]
  have h0 : (('{' : Char) = '\\') = False := by decide
  simp only [h0, false_and, if_false]
  split
  · rename_i cs2 h12
    rw [grab_closed hN] at h12
    have h13 : cs2 = DEN ++ '}' :: r := by
      injection h12 with h13a h13b
      exact h13b.symm
    subst h13
    rw [grab_closed hD, List.dropLast_concat]
  · rename_i hno
    exact absurd
      (by rw [grab_closed hN] :
        (grab 1 (NUM ++ '}' :: '{' :: (DEN ++ '}' :: r))).2 = '{' :: (DEN ++ '}' :: r))
      (fun h => absurd (hno _ h) (fun q => q))

/-- Walker rule for `\sqrt{EXPR}` with balanced content: it renders
`√(EXPR)` with the content recursively processed, then continues. -/
theorem pb_sqrt (E r : List Char) (hE : Bal E) :
    pb [] ('\\' :: 's' :: 'q' :: 'r' :: 't' :: '{' :: (E ++ '}' :: r))
      = '√' :: '(' :: (pb [] E ++ ')' :: pb [] r) := by
  rw [pb]
  have ha : Char.isAlpha 's' = true := by decide
  have hb : Char.isAlpha 'q' = true := by decide
  have hc : Char.isAlpha 'r' = true := by decide
  have hd : Char.isAlpha 't' = true := by decide
  have he : Char.isAlpha '{' = false := by decide
  simp only [List.takeWhile, List.dropWhile, ha, hb, hc, hd, he, ne_eq,
    reduceCtorEq, not_false_eq_true, and_self, if_true, if_false]
  rw [pb]
  have h0 : (('{' : Char) = '\\') = False := by decide
  have h1 : (sqrtCmd = fracCmd) = False := by decide
  simp only [h0, false_and, if_false, fracCmd, sqrtCmd, List.cons.injEq,
    reduceCtorEq, and_false, false_and, and_true, if_false, if_true,
    grab_closed hE, List.dropLast_concat]
  rw [if_neg (by decide : ¬ (True ∧ 's' = 'f' ∧ 'q' = 'r' ∧ 'r' = 'a' ∧ 't' = 'c'))]

/-- Walker rule for any other brace group (bare or governed by a
command that is neither `\frac` nor `\sqrt`): the group, braces AND
content, is skipped entirely; `current_cmd` is left unchanged. -/
theorem pb_skip (cmd T r : List Char) (hT : Bal T)
    (h1 : cmd ≠ fracCmd) (h2 : cmd ≠ sqrtCmd) :
    pb cmd ('{' :: (T ++ '}' :: r)) = pb cmd r := by
  rw [pb]
  rw [if_neg (fun h => absurd h.1 (by decide))]
  rw [if_pos rfl, if_neg h1, if_neg h2, grab_closed hT]

/-- Walker rule for an ordinary character (not a backslash starting a
command, not an opening brace): it is emitted unchanged and resets
`current_cmd`. -/
theorem pb_char (cmd : List Char) (c : Char) (r : List Char)
    (h1 : c ≠ '\\') (h2 : c ≠ '{') :
    pb cmd (c :: r) = c :: pb [] r := by
  rw [pb]
  rw [if_neg (fun h => h1 h.1), if_neg h2]

/-- C3: `format_math_expression` renders `\frac` groups as
`(NUM)/(DEN)` and `\sqrt` groups as `√(EXPR)`, with the parts
recursively formatted by the brace walker; in particular
`\frac` of 1 and 2 yields `(1)/(2)`, the nested fraction over 3 yields
`((1)/(2))/(3)`, and `\sqrt` of 4 yields `√(4)`. -/
theorem claim_C3 :
    (∀ NUM DEN r, Bal NUM → Bal DEN →
      pb [] ('\\' :: 'f' :: 'r' :: 'a' :: 'c' :: '{' :: (NUM ++ '}' :: '{' :: (DEN ++ '}' :: r)))
        = ('(' :: pb [] NUM) ++ (')' :: '/' :: '(' :: pb [] DEN) ++ (')' :: pb [] r))
    ∧ (∀ E r, Bal E →
      pb [] ('\\' :: 's' :: 'q' :: 'r' :: 't' :: '{' :: (E ++ '}' :: r))
        = '√' :: '(' :: (pb [] E ++ ')' :: pb [] r))
    ∧ format_math_expression ['\\', 'f', 'r', 'a', 'c', '{', '1', '}', '{', '2', '}']
        = ['(', '1', ')', '/', '(', '2', ')']
    ∧ format_math_expression
        ['\\', 'f', 'r', 'a', 'c', '{', '\\', 'f', 'r', 'a', 'c',
         '{', '1', '}', '{', '2', '}', '}', '{', '3', '}']
        = ['(', '(', '1', ')', '/', '(', '2', ')', ')', '/', '(', '3', ')']
    ∧ format_math_expression ['\\', 's', 'q', 'r', 't', '{', '4', '}']
        = ['√', '(', '4', ')'] := by
  refine ⟨pb_frac, pb_sqrt, ?_, ?_, ?_⟩
  · have h : applyReps (fmeDelim (stripL
        ['\\', 'f', 'r', 'a', 'c', '{', '1', '}', '{', '2', '}']))
        = ['\\', 'f', 'r', 'a', 'c', '{', '1', '}', '{', '2', '}'] := by decide
    rw [format_math_expression, h]
    simp [pb, grab, lvlStep, fracCmd, sqrtCmd]
  · have h : applyReps (fmeDelim (stripL
        ['\\', 'f', 'r', 'a', 'c', '{', '\\', 'f', 'r', 'a', 'c',
         '{', '1', '}', '{', '2', '}', '}', '{', '3', '}']))
        = ['\\', 'f', 'r', 'a', 'c', '{', '\\', 'f', 'r', 'a', 'c',
           '{', '1', '}', '{', '2', '}', '}', '{', '3', '}'] := by decide
    rw [format_math_expression, h]
    simp [pb, grab, lvlStep, fracCmd, sqrtCmd]
  · have h : applyReps (fmeDelim (stripL
        ['\\', 's', 'q', 'r', 't', '{', '4', '}']))
        = ['\\', 's', 'q', 'r', 't', '{', '4', '}'] := by decide
    rw [format_math_expression, h]
    simp [pb, grab, lvlStep, fracCmd, sqrtCmd]

/-- Witness for C3 at a concrete balanced numerator and denominator. -/
theorem claim_C3_wit :
    pb [] ('\\' :: 'f' :: 'r' :: 'a' :: 'c' :: '{' :: (['1'] ++ '}' :: '{' :: (['2'] ++ '}' :: [])))
      = ('(' :: pb [] ['1']) ++ (')' :: '/' :: '(' :: pb [] ['2']) ++ (')' :: pb [] []) :=
  claim_C3.1 ['1'] ['2'] []
    (Bal.other (by decide) (by decide) Bal.nil)
    (Bal.other (by decide) (by decide) Bal.nil)

/-- C4 (amended): a braced group governed by a command other than
`\frac`/`\sqrt`, or a bare braced group, is dropped entirely — braces
AND inner content — while ordinary characters (anything that is not a
command-starting backslash or an opening brace, including unmatched
closing braces) pass through as literal text. -/
theorem claim_C4 :
    (∀ cmd T r, Bal T → cmd ≠ fracCmd → cmd ≠ sqrtCmd →
        pb cmd ('{' :: (T ++ '}' :: r)) = pb cmd r)
    ∧ (∀ cmd c r, c ≠ '\\' → c ≠ '{' → pb cmd (c :: r) = c :: pb [] r) :=
  ⟨fun cmd T r hT h1 h2 => pb_skip cmd T r hT h1 h2,
   fun cmd c r h1 h2 => pb_char cmd c r h1 h2⟩

/-- Witness for C4: a bare braced group around `abc` is dropped. -/
theorem claim_C4_wit :
    pb [] ('{' :: (['a', 'b', 'c'] ++ '}' :: [])) = pb [] [] :=
  claim_C4.1 [] ['a', 'b', 'c'] []
    (Bal.other (by decide) (by decide)
      (Bal.other (by decide) (by decide)
        (Bal.other (by decide) (by decide) Bal.nil)))
    (by decide) (by decide)

/-- Counterexample to C4 as stated: on the bare braced group around
`abc`, the inner content is NOT emitted as plain text — the whole
group disappears and the output is empty. -/
theorem claim_C4_cex :
    format_math_expression ['{', 'a', 'b', 'c', '}'] = []
    ∧ ¬ ('a' ∈ format_math_expression ['{', 'a', 'b', 'c', '}']) := by
  have h0 : format_math_expression ['{', 'a', 'b', 'c', '}'] = [] := by
    have h : applyReps (fmeDelim (stripL ['{', 'a', 'b', 'c', '}']))
        = ['{', 'a', 'b', 'c', '}'] := by decide
    rw [format_math_expression, h]
    simp [pb, grab, lvlStep, fracCmd, sqrtCmd]
  exact ⟨h0, by rw [h0]; simp⟩

/-- C6: the walker is total and truncates on unterminated braces:
plain text before an opening brace whose group never closes is
emitted, and the unterminated group is dropped at end of input; in
particular `format_math_expression` maps the unterminated input
`ab{cd` to `ab`. -/
theorem claim_C6 :
    (∀ t u, (∀ c ∈ t, c ≠ '\\' ∧ c ≠ '{') → neverCloses 1 u = true →
        pb [] (t ++ '{' :: u) = t)
    ∧ format_math_expression ['a', 'b', '{', 'c', 'd'] = ['a', 'b'] := by
  constructor
  · intro t u ht hu
    rw [pb_plain ht, pb]
    rw [if_neg (fun h => absurd h.1 (by decide))]
    rw [if_pos rfl]
    rw [if_neg (by decide : ¬ (([] : List Char) = fracCmd))]
    rw [if_neg (by decide : ¬ (([] : List Char) = sqrtCmd))]
    rw [grab_never hu]
    rw [pb]
    simp
  · have h : applyReps (fmeDelim (stripL ['a', 'b', '{', 'c', 'd']))
        = ['a', 'b', '{', 'c', 'd'] := by decide
    rw [format_math_expression, h]
    simp [pb, grab, lvlStep, fracCmd, sqrtCmd]

/-- Witness for C6 at a concrete plain prefix and unterminated tail. -/
theorem claim_C6_wit :
    pb [] (['a', 'b'] ++ '{' :: ['c', 'd']) = ['a', 'b'] :=
  claim_C6.1 ['a', 'b'] ['c', 'd'] (by decide) (by decide)

/-- C9: termination structure of the brace walker: the brace scan
splits its input exactly (so each numerator, denominator or root body
is carved out of the characters after the opening brace), and every
recursive payload — the scanned group with its last character dropped,
the scan remainder, and the post-command remainder — is strictly
shorter than the walker's current input (which has length
`l.length + 1` resp. `cs.length + 1` counting the brace or backslash
being consumed), so the scan index strictly advances. -/
theorem claim_C9 :
    ∀ (n : Nat) (l cs : List Char),
      (grab n l).1 ++ (grab n l).2 = l
      ∧ (grab n l).1.dropLast.length < l.length + 1
      ∧ (grab n l).2.length < l.length + 1
      ∧ (cs.dropWhile Char.isAlpha).length < cs.length + 1 := by
  intro n l cs
  refine ⟨grab_append n l, ?_, ?_, ?_⟩
  · have h1 := grab_fst_length_le n l
    have h2 := List.length_dropLast (grab n l).1
    omega
  · have := grab_snd_length_le n l
    omega
  · have := length_dropWhile_le Char.isAlpha cs
    omega

/-- Closing-pair test: a backslash immediately followed by `)` or `]`. -/
def isCloserPair (c1 c2 : Char) : Bool :=
  c1 = '\\' && (c2 = ')' || c2 = ']')

/-- Opening-pair test: a backslash immediately followed by `(` or `[`. -/
def isOpenerPair (c1 c2 : Char) : Bool :=
  c1 = '\\' && (c2 = '(' || c2 = '[')

/-- Lazy-closer search of the regex in `extract_latex_blocks`
(pattern body `.*?` followed by a backslash and `)` or `]`, with
DOTALL, so the FIRST closing pair of either kind ends the block):
return the consumed characters (through the closer) and the remaining
input, or `none` when no closing pair occurs. -/
def findCloser : List Char → Option (List Char × List Char)
  | [] => none
  | [_] => none
  | c1 :: c2 :: cs =>
      if isCloserPair c1 c2 then some ([c1, c2], cs)
      else (findCloser (c2 :: cs)).map (fun p => (c1 :: p.1, p.2))

theorem findCloser_append :
    ∀ {l b r : List Char}, findCloser l = some (b, r) →
      b ++ r = l ∧ 0 < b.length := by
  intro l
  induction l with
  | nil => intro b r h; simp [findCloser] at h
  | cons c1 rest ih =>
      intro b r h
      match rest, h with
      | [], h => simp [findCloser] at h
      | c2 :: cs, h =>
          rw [findCloser] at h
          by_cases hc : isCloserPair c1 c2 = true
          · rw [if_pos hc] at h
            injection h with h
            have hb : b = [c1, c2] := (congrArg Prod.fst h).symm
            have hr : r = cs := (congrArg Prod.snd h).symm
            subst hb; subst hr
            simp
          · rw [if_neg hc] at h
            cases hfc : findCloser (c2 :: cs) with
            | none => rw [hfc] at h; simp at h
            | some p =>
                rw [hfc] at h
                simp only [Option.map_some'] at h
                injection h with h
                have hb : b = c1 :: p.1 := (congrArg Prod.fst h).symm
                have hr : r = p.2 := (congrArg Prod.snd h).symm
                subst hb; subst hr
                have hp : findCloser (c2 :: cs) = some (p.1, p.2) := by
                  rw [hfc]
                have := ih hp
                constructor
                · rw [List.cons_append, this.1]
                · simp

/-- No-closing-pair test over a whole string. -/
def hasCloser : List Char → Bool
  | c1 :: c2 :: cs => isCloserPair c1 c2 || hasCloser (c2 :: cs)
  | _ => false

/-- No-opening-pair test over a whole string. -/
def hasOpener : List Char → Bool
  | c1 :: c2 :: cs => isOpenerPair c1 c2 || hasOpener (c2 :: cs)
  | _ => false

/-- Match attempt at the current position: the regex
`\\[\(\[].*?\\[\)\]]` matches here exactly when the input starts with
`\(` or `\[` and a closing pair occurs later; the match is the opener
plus the lazily-consumed body through the first closer. -/
def tryOpen : List Char → Option (List Char × List Char)
  | c1 :: c2 :: cs =>
      if isOpenerPair c1 c2 then
        (findCloser cs).map (fun p => (c1 :: c2 :: p.1, p.2))
      else none
  | _ => none

theorem tryOpen_split :
    ∀ {l b r : List Char}, tryOpen l = some (b, r) →
      b ++ r = l ∧ 2 < b.length := by
  intro l b r h
  match l, h with
  | c1 :: c2 :: cs, h =>
      rw [tryOpen] at h
      by_cases hc : isOpenerPair c1 c2 = true
      · rw [if_pos hc] at h
        cases hfc : findCloser cs with
        | none => rw [hfc] at h; simp at h
        | some p =>
            rw [hfc] at h
            simp only [Option.map_some'] at h
            injection h with h
            have hb : b = c1 :: c2 :: p.1 := (congrArg Prod.fst h).symm
            have hr : r = p.2 := (congrArg Prod.snd h).symm
            subst hb; subst hr
            have hp : findCloser cs = some (p.1, p.2) := by rw [hfc]
            have h2 := findCloser_append hp
            constructor
            · simp [h2.1]
            · simp
              omega
      · rw [if_neg hc] at h
        simp at h

/-- Leftmost, non-overlapping scan of `re.finditer` in
`extract_latex_blocks`: decompose the text into a list of
(plain-segment, matched-block) pairs followed by a trailing plain
segment.  At each position a match is attempted; on success the scan
resumes after the match, otherwise the character joins the current
plain segment. -/
def splitLatex : List Char → List (List Char × List Char) × List Char
  | [] => ([], [])
  | c :: cs =>
      match h : tryOpen (c :: cs) with
      | some (blk, rest) =>
          (([], blk) :: (splitLatex rest).1, (splitLatex rest).2)
      | none =>
          match splitLatex cs with
          | ([], tail) => ([], c :: tail)
          | (pr :: prs, tail) => ((c :: pr.1, pr.2) :: prs, tail)
  termination_by l => l.length
  decreasing_by
  all_goals simp_wf
  · have := tryOpen_split h
    have hl := congrArg List.length this.1
    simp only [List.length_append, List.length_cons] at hl
    omega

/-- Reconstruction of a decomposition: concatenate each plain segment
with its block, then the trailing segment.  Substituting each block's
own text back into its placeholder position yields exactly this. -/
def reassemble : List (List Char × List Char) → List Char → List Char
  | [], tail => tail
  | pr :: prs, tail => pr.1 ++ pr.2 ++ reassemble prs tail

/-- Decimal digit character. -/
def digitChar (n : Nat) : Char := Char.ofNat (48 + n)

/-- Decimal representation of a natural number. -/
def natChars (n : Nat) : List Char :=
  if h : n < 10 then [digitChar n]
  else natChars (n / 10) ++ [digitChar (n % 10)]
  termination_by n
  decreasing_by
  simp_wf
  omega

/-- Placeholder token `__LATEX_i__` inserted by `extract_latex_blocks`. -/
def placeholderL (i : Nat) : List Char :=
  ['_', '_', 'L', 'A', 'T', 'E', 'X', '_'] ++ natChars i ++ ['_', '_']

/-- Indexed interleaving: plain segments with `f i block` substituted
for the i-th block, then the trailing segment. -/
def assembleWith (f : Nat → List Char → List Char) :
    Nat → List (List Char × List Char) → List Char → List Char
  | _, [], tail => tail
  | i, pr :: prs, tail => pr.1 ++ f i pr.2 ++ assembleWith f (i + 1) prs tail

/-- Shallow embedding of `extract_latex_blocks` from `src/llm.py`:
the returned text carries placeholder `__LATEX_i__` in place of the
i-th matched block (Python performs the splicing right-to-left so
that match offsets stay valid; the result equals this direct
interleaving), and the block list is in left-to-right match order. -/
def extract_latex_blocks (text : List Char) : List Char × List (List Char) :=
  (assembleWith (fun i _ => placeholderL i) 0 (splitLatex text).1 (splitLatex text).2,
   (splitLatex text).1.map Prod.snd)

theorem assembleWith_id :
    ∀ (i : Nat) (prs : List (List Char × List Char)) (tail : List Char),
      assembleWith (fun _ b => b) i prs tail = reassemble prs tail := by
  intro i prs
  induction prs generalizing i with
  | nil => intro tail; rfl
  | cons pr prs ih =>
      intro tail
      rw [assembleWith, reassemble, ih]

theorem splitLatex_reassemble (text : List Char) :
    reassemble (splitLatex text).1 (splitLatex text).2 = text := by
  induction text using splitLatex.induct with
  | case1 => simp [splitLatex, reassemble]
  | case2 c cs blk rest h ih =>
      rw [splitLatex]
      split
      · rename_i blk' rest' h'
        have h2 : blk' = blk ∧ rest' = rest := by
          rw [h] at h'
          injection h' with h'
          exact ⟨(congrArg Prod.fst h').symm, (congrArg Prod.snd h').symm⟩
        obtain ⟨rfl, rfl⟩ := h2
        rw [reassemble]
        simp only [List.nil_append]
        rw [ih]
        exact (tryOpen_split h).1
      · rename_i h'
        rw [h] at h'
        simp at h'
  | case3 c cs h tail hs ih =>
      rw [splitLatex]
      split
      · rename_i blk' rest' h'
        rw [h] at h'
        simp at h'
      · rw [hs] at ih ⊢
        simp only [reassemble] at ih ⊢
        rw [ih]
  | case4 c cs h pr prs tail hs ih =>
      rw [splitLatex]
      split
      · rename_i blk' rest' h'
        rw [h] at h'
        simp at h'
      · rw [hs] at ih ⊢
        simp only [reassemble] at ih ⊢
        rw [← ih]
        simp

/-- Shape of every string returned by the lazy closer search: a body
containing no closing pair, then a closing pair of either kind. -/
theorem findCloser_shape :
    ∀ {l b r : List Char}, findCloser l = some (b, r) →
      ∃ body c2, b = body ++ ['\\', c2] ∧ (c2 = ')' ∨ c2 = ']')
        ∧ hasCloser body = false := by
  intro l
  induction l with
  | nil => intro b r h; simp [findCloser] at h
  | cons c1 rest ih =>
      intro b r h
      match rest, h with
      | [], h => simp [findCloser] at h
      | c2 :: cs, h =>
          rw [findCloser] at h
          by_cases hc : isCloserPair c1 c2 = true
          · rw [if_pos hc] at h
            injection h with h
            have hb : b = [c1, c2] := (congrArg Prod.fst h).symm
            subst hb
            have h1 : c1 = '\\' ∧ (c2 = ')' ∨ c2 = ']') := by
              simp only [isCloserPair, Bool.and_eq_true, decide_eq_true_eq,
                Bool.or_eq_true] at hc
              exact hc
            exact ⟨[], c2, by simp [h1.1], h1.2, rfl⟩
          · rw [if_neg hc] at h
            cases hfc : findCloser (c2 :: cs) with
            | none => rw [hfc] at h; simp at h
            | some p =>
                rw [hfc] at h
                simp only [Option.map_some'] at h
                injection h with h
                have hb : b = c1 :: p.1 := (congrArg Prod.fst h).symm
                subst hb
                have hp : findCloser (c2 :: cs) = some (p.1, p.2) := by rw [hfc]
                obtain ⟨body, cc, hbody, hcc, hno⟩ := ih hp
                refine ⟨c1 :: body, cc, by simp [hbody], hcc, ?_⟩
                have hhead : p.1 ≠ [] → p.1.head? = some c2 := by
                  intro hne
                  have := (findCloser_append hp).1
                  cases hq : p.1 with
                  | nil => exact absurd hq hne
                  | cons d ds =>
                      rw [hq] at this
                      simp only [List.cons_append] at this
                      injection this with hd _
                      simp [hd]
                cases hbody2 : body with
                | nil => simp [hasCloser]
                | cons d ds =>
                    have hne : p.1 ≠ [] := by
                      rw [hbody, hbody2]
                      simp
                    have hd : d = c2 := by
                      have := hhead hne
                      rw [hbody, hbody2] at this
                      simp at this
                      exact this
                    subst hd
                    rw [hasCloser]
                    rw [hbody2] at hno
                    simp only [Bool.or_eq_false_iff]
                    constructor
                    · cases hq : isCloserPair c1 d with
                      | true => exact absurd hq hc
                      | false => rfl
                    · exact hno

/-- Shape of every matched span: an opener pair of either kind, a body
with no closing pair, then the first closing pair of either kind. -/
theorem tryOpen_shape :
    ∀ {l b r : List Char}, tryOpen l = some (b, r) →
      ∃ o body c, b = '\\' :: o :: (body ++ ['\\', c]) ∧ (o = '(' ∨ o = '[')
        ∧ (c = ')' ∨ c = ']') ∧ hasCloser body = false := by
  intro l b r h
  match l, h with
  | c1 :: c2 :: cs, h =>
      rw [tryOpen] at h
      by_cases hc : isOpenerPair c1 c2 = true
      · rw [if_pos hc] at h
        cases hfc : findCloser cs with
        | none => rw [hfc] at h; simp at h
        | some p =>
            rw [hfc] at h
            simp only [Option.map_some'] at h
            injection h with h
            have hb : b = c1 :: c2 :: p.1 := (congrArg Prod.fst h).symm
            subst hb
            have hp : findCloser cs = some (p.1, p.2) := by rw [hfc]
            obtain ⟨body, cc, hbody, hcc, hno⟩ := findCloser_shape hp
            have h1 : c1 = '\\' ∧ (c2 = '(' ∨ c2 = '[') := by
              simp only [isOpenerPair, Bool.and_eq_true, decide_eq_true_eq,
                Bool.or_eq_true] at hc
              exact hc
            exact ⟨c2, body, cc, by rw [h1.1, hbody], h1.2, hcc, hno⟩
      · rw [if_neg hc] at h
        simp at h

theorem hasCloser_append_left {s : List Char} (t : List Char)
    (hs : hasCloser s = true) : hasCloser (s ++ t) = true := by
  induction s using hasCloser.induct with
  | case1 c1 c2 cs ih =>
      rw [hasCloser] at hs
      rw [List.cons_append, List.cons_append, hasCloser]
      simp only [Bool.or_eq_true] at hs ⊢
      cases hs with
      | inl h => exact Or.inl h
      | inr h =>
          right
          have := ih h
          rw [List.cons_append] at this
          exact this
  | case2 l h =>
      rw [hasCloser] at hs
      · exact absurd hs (by simp)
      · exact h

theorem hasCloser_append_right (s : List Char) {t : List Char}
    (ht : hasCloser t = true) : hasCloser (s ++ t) = true := by
  induction s with
  | nil => simpa using ht
  | cons a s' ih =>
      have hne : s' ++ t ≠ [] := by
        intro hq
        have : t = [] := by
          cases List.append_eq_nil.mp hq with
          | intro h1 h2 => exact h2
        rw [this] at ht
        simp [hasCloser] at ht
      cases hst : s' ++ t with
      | nil => exact absurd hst hne
      | cons d ds =>
          rw [List.cons_append, hst, hasCloser]
          rw [hst] at ih
          simp [ih]

theorem findCloser_none_hasCloser :
    ∀ {l : List Char}, findCloser l = none → hasCloser l = false := by
  intro l
  induction l with
  | nil => intro _; rfl
  | cons c1 rest ih =>
      intro h
      match rest, h with
      | [], _ => rfl
      | c2 :: cs, h =>
          rw [findCloser] at h
          by_cases hc : isCloserPair c1 c2 = true
          · rw [if_pos hc] at h
            simp at h
          · rw [if_neg hc] at h
            have h2 : findCloser (c2 :: cs) = none := by
              cases hfc : findCloser (c2 :: cs) with
              | none => rfl
              | some p => rw [hfc] at h; simp at h
            rw [hasCloser]
            simp only [Bool.or_eq_false_iff]
            exact ⟨by cases hq : isCloserPair c1 c2 with
              | true => exact absurd hq hc
              | false => rfl, ih h2⟩


/-- Shape of a recognized block: opener pair, body free of closing
pairs, then the first closing pair (of either kind). -/
def blockShape (b : List Char) : Prop :=
  ∃ o body c, b = '\\' :: o :: (body ++ ['\\', c]) ∧ (o = '(' ∨ o = '[')
    ∧ (c = ')' ∨ c = ']') ∧ hasCloser body = false

theorem blockShape_hasCloser {b : List Char} (hb : blockShape b) :
    hasCloser b = true := by
  obtain ⟨o, body, c, rfl, ho, hc, hno⟩ := hb
  have h1 : hasCloser ['\\', c] = true := by
    cases hc with
    | inl h => subst h; decide
    | inr h => subst h; decide
  have h2 : hasCloser (body ++ ['\\', c]) = true := hasCloser_append_right body h1
  have h3 : hasCloser (o :: (body ++ ['\\', c])) = true := by
    have := hasCloser_append_right [o] h2
    simpa using this
  rw [hasCloser]
  simp [h3]

theorem splitLatex_pos {c : Char} {cs blk rest : List Char}
    (h : tryOpen (c :: cs) = some (blk, rest)) :
    splitLatex (c :: cs) = (([], blk) :: (splitLatex rest).1, (splitLatex rest).2) := by
  rw [splitLatex]
  split
  · rename_i blk' rest' h'
    have h2 : blk' = blk ∧ rest' = rest := by
      rw [h] at h'
      injection h' with h'
      exact ⟨(congrArg Prod.fst h').symm, (congrArg Prod.snd h').symm⟩
    obtain ⟨rfl, rfl⟩ := h2
    rfl
  · rename_i h'
    rw [h] at h'
    simp at h'

theorem splitLatex_neg {c : Char} {cs : List Char}
    (h : tryOpen (c :: cs) = none) :
    splitLatex (c :: cs) = (match splitLatex cs with
      | ([], tail) => ([], c :: tail)
      | (pr :: prs, tail) => ((c :: pr.1, pr.2) :: prs, tail)) := by
  rw [splitLatex]
  split
  · rename_i blk' rest' h'
    rw [h] at h'
    simp at h'
  · rfl

theorem splitLatex_sound (text : List Char) :
    ∀ pr ∈ (splitLatex text).1, blockShape pr.2 ∧ hasOpener pr.1 = false := by
  induction text using splitLatex.induct with
  | case1 => intro pr hpr; simp [splitLatex] at hpr
  | case2 c cs blk rest h ih =>
      intro pr hpr
      rw [splitLatex_pos h] at hpr
      simp only [List.mem_cons] at hpr
      cases hpr with
      | inl hpr =>
          subst hpr
          constructor
          · obtain ⟨o, body, cc, hb, ho, hc, hno⟩ := tryOpen_shape h
            exact ⟨o, body, cc, hb, ho, hc, hno⟩
          · rfl
      | inr hpr => exact ih pr hpr
  | case3 c cs h tail hs ih =>
      intro pr hpr
      rw [splitLatex_neg h, hs] at hpr
      simp at hpr
  | case4 c cs h pr0 prs tail hs ih =>
      intro pr hpr
      rw [splitLatex_neg h, hs] at hpr
      simp only [List.mem_cons] at hpr
      have hpr0 : pr0 ∈ (splitLatex cs).1 := by
        rw [hs]; simp
      obtain ⟨hshape0, hop0⟩ := ih pr0 hpr0
      cases hpr with
      | inl hpr =>
          subst hpr
          refine ⟨hshape0, ?_⟩
          cases hq : pr0.1 with
          | nil => rfl
          | cons d ds =>
              have hcs : cs = d :: ((ds ++ pr0.2) ++ reassemble prs tail) := by
                have hre := splitLatex_reassemble cs
                rw [hs] at hre
                rw [reassemble] at hre
                rw [hq] at hre
                rw [← hre]
                simp
              have hopcd : isOpenerPair c d = false := by
                cases hw : isOpenerPair c d with
                | false => rfl
                | true =>
                    exfalso
                    rw [hcs, tryOpen, if_pos hw] at h
                    have hfc : findCloser ((ds ++ pr0.2) ++ reassemble prs tail) = none := by
                      cases hz : findCloser ((ds ++ pr0.2) ++ reassemble prs tail) with
                      | none => rfl
                      | some p => rw [hz] at h; simp at h
                    have hcl : hasCloser ((ds ++ pr0.2) ++ reassemble prs tail) = true := by
                      have hin : hasCloser (ds ++ pr0.2) = true :=
                        hasCloser_append_right ds (blockShape_hasCloser hshape0)
                      exact hasCloser_append_left _ hin
                    rw [findCloser_none_hasCloser hfc] at hcl
                    exact absurd hcl (by simp)
              rw [hq] at hop0
              rw [hasOpener, hopcd, hop0]
              rfl
      | inr hpr =>
          exact ih pr (by rw [hs]; simp [hpr])

/-- C2: the extractor inserts exactly one placeholder per returned
block (so the counts agree), and substituting each block's own text
back into its placeholder position reproduces the input exactly. -/
theorem claim_C2 (text : List Char) :
    (extract_latex_blocks text).2.length = (splitLatex text).1.length
    ∧ extract_latex_blocks text
        = (assembleWith (fun i _ => placeholderL i) 0 (splitLatex text).1 (splitLatex text).2,
           (splitLatex text).1.map Prod.snd)
    ∧ assembleWith (fun _ b => b) 0 (splitLatex text).1 (splitLatex text).2 = text := by
  refine ⟨by simp [extract_latex_blocks], rfl, ?_⟩
  rw [assembleWith_id]
  exact splitLatex_reassemble text

/-- C5 (amended): every block recognized by the extractor starts with
an opener pair and ends at the FIRST closing pair of either kind
(`\)` or `\]`, not necessarily the one corresponding to the opener),
blocks are non-overlapping and returned in left-to-right occurrence
order (witnessed by the in-order reconstruction of the input), and no
opener pair is left behind in the plain text between recognized
blocks. -/
theorem claim_C5 (text : List Char) :
    (∀ pr ∈ (splitLatex text).1,
        (∃ o body c, pr.2 = '\\' :: o :: (body ++ ['\\', c]) ∧ (o = '(' ∨ o = '[')
          ∧ (c = ')' ∨ c = ']') ∧ hasCloser body = false)
        ∧ hasOpener pr.1 = false)
    ∧ (extract_latex_blocks text).2 = (splitLatex text).1.map Prod.snd
    ∧ reassemble (splitLatex text).1 (splitLatex text).2 = text := by
  refine ⟨?_, rfl, splitLatex_reassemble text⟩
  intro pr hpr
  exact splitLatex_sound text pr hpr

/-- Counterexample to C5 as stated: the block `\(x\]` opens with
`\(` but is closed by `\]`, which is not the corresponding closer —
the regex accepts either closing pair. -/
theorem claim_C5_cex :
    (extract_latex_blocks ['\\', '(', 'x', '\\', ']']).2 = [['\\', '(', 'x', '\\', ']']]
    ∧ leadsWith ['\\', '('] ['\\', '(', 'x', '\\', ']'] = true
    ∧ trailsWith ['\\', ')'] ['\\', '(', 'x', '\\', ']'] = false
    ∧ trailsWith ['\\', ']'] ['\\', '(', 'x', '\\', ']'] = true := by
  refine ⟨?_, by decide, by decide, by decide⟩
  have h : tryOpen ['\\', '(', 'x', '\\', ']']
      = some (['\\', '(', 'x', '\\', ']'], []) := by
    rw [tryOpen]
    simp [isOpenerPair, findCloser, isCloserPair]
  simp only [extract_latex_blocks, splitLatex_pos h]
  simp [splitLatex]


/-- Python `str.split` on a newline character. -/
def splitNL : List Char → List (List Char)
  | [] => [[]]
  | c :: cs =>
      if c = '\n' then [] :: splitNL cs
      else
        match splitNL cs with
        | [] => [[c]]
        | h :: t => (c :: h) :: t

/-- Python `'\n'.join`. -/
def joinNL : List (List Char) → List Char
  | [] => []
  | [l] => l
  | l :: ls => l ++ '\n' :: joinNL ls

/-- Backtick character (code-span marker). -/
def btick : Char := Char.ofNat 96

/-- Emphasis cleaning of `format_line_message`: when the line holds no
backtick, remove every literal star and underscore. -/
def cleanLine (line : List Char) : List Char :=
  if line.contains btick then line
  else pyReplace (pyReplace line ['*'] []) ['_'] []

/-- Separator condition of `format_line_message`: the emitted list is
non-empty and its last line is non-blank (the accumulator is kept in
reverse order, head = most recently emitted line). -/
def needSep : List (List Char) → Bool
  | [] => false
  | l :: _ => !(stripL l).isEmpty

/-- Header label of a `#` line: leading `#` characters removed from
the RAW line, then stripped (mirrors `line.lstrip('#').strip()`). -/
def hdrLabel (line : List Char) : List Char :=
  stripL (line.dropWhile (fun c => c = '#'))

/-- One iteration of the `for i, line in enumerate(lines)` loop of
`format_line_message`, over the reversed accumulator.  `next?` is the
following input line when one exists.  Branches in source order:
Step/Summary header (separator + bare label), blank line (collapse),
generic line (clean, strip, emit, then look-ahead separator). -/
def flmStep (acc : List (List Char)) (line : List Char)
    (next? : Option (List Char)) : List (List Char) :=
  if leadsWith ['#'] (stripL line) &&
     (leadsWith "Step".toList (hdrLabel line) ||
      leadsWith "Summary".toList (hdrLabel line)) then
    hdrLabel line :: (if needSep acc then [] :: acc else acc)
  else if (stripL line).isEmpty then
    (if needSep acc then [] :: acc else acc)
  else
    match next? with
    | none => stripL (cleanLine line) :: acc
    | some nl =>
        if leadsWith ['#'] (stripL nl) || leadsWith "Step".toList (stripL nl) ||
           leadsWith "Summary".toList (stripL nl) then
          [] :: stripL (cleanLine line) :: acc
        else if (cleanLine line).contains '=' &&
            !(leadsWith "This".toList (stripL nl) || leadsWith "Since".toList (stripL nl) ||
              leadsWith "Therefore".toList (stripL nl)) then
          [] :: stripL (cleanLine line) :: acc
        else stripL (cleanLine line) :: acc

/-- Loop of `format_line_message` over all lines. -/
def flmGo : List (List Char) → List (List Char) → List (List Char)
  | acc, [] => acc
  | acc, l :: ls => flmGo (flmStep acc l ls.head?) ls

/-- Emitted lines of `format_line_message` in forward order, after the
trailing-blank cleanup (`while ...: formatted_lines.pop()`). -/
def flmLines (text : List Char) : List (List Char) :=
  ((flmGo [] (splitNL text)).dropWhile (fun l => (stripL l).isEmpty)).reverse

/-- Shallow embedding of `format_line_message` from `src/llm.py`. -/
def format_line_message (text : List Char) : List Char := joinNL (flmLines text)

/-- Fallback message of `format_solution` and `call_openrouter`. -/
def fallbackMsg : List Char :=
  "Sorry, I encountered an error. Please try again later.".toList

/-- Substitution loop of `format_solution`: each placeholder is
replaced (all occurrences) by the formatted math wrapped in a pair of
backticks. -/
def replaceLoop : Nat → List (List Char) → List Char → List Char
  | _, [], t => t
  | i, b :: bs, t =>
      replaceLoop (i + 1) bs
        (pyReplace t (placeholderL i) (btick :: (format_math_expression b ++ [btick])))

/-- Shallow embedding of `format_solution` from `src/llm.py`: empty
(falsy) input yields the fixed fallback; otherwise extract blocks,
substitute their formatted renderings, and normalize lines. -/
def format_solution (answer : List Char) : List Char :=
  if answer = [] then fallbackMsg
  else format_line_message
    (replaceLoop 0 (extract_latex_blocks answer).2 (extract_latex_blocks answer).1)

/-- C7: a line whose trimmed form starts with `#` and whose label
(leading `#` characters then surrounding whitespace stripped) starts
with `Step` or `Summary` is emitted as the bare label, preceded by a
blank separator exactly when the previously emitted line is non-blank;
in particular the single line `## Step 1` formats to `Step 1`. -/
theorem claim_C7 :
    (∀ acc line next?, leadsWith ['#'] (stripL line) = true →
        (leadsWith "Step".toList (hdrLabel line) = true ∨
         leadsWith "Summary".toList (hdrLabel line) = true) →
        flmStep acc line next?
          = hdrLabel line :: (if needSep acc then [] :: acc else acc))
    ∧ format_line_message ("## Step 1".toList) = "Step 1".toList := by
  constructor
  · intro acc line next? h1 h2
    rw [flmStep.eq_def]
    have hcond : (leadsWith ['#'] (stripL line) &&
        (leadsWith "Step".toList (hdrLabel line) ||
         leadsWith "Summary".toList (hdrLabel line))) = true := by
      rw [h1]
      cases h2 with
      | inl h => rw [h]; rfl
      | inr h => rw [h]; simp
    rw [if_pos hcond]
  · decide

/-- Witness for C7: a `# Step 2` line after a non-blank emitted line
gains a separator and loses its marker. -/
theorem claim_C7_wit :
    flmStep [['x']] ("# Step 2".toList) none
      = hdrLabel ("# Step 2".toList)
        :: (if needSep [['x']] then [] :: [['x']] else [['x']]) :=
  claim_C7.1 [['x']] ("# Step 2".toList) none (by decide) (Or.inl (by decide))

/-- C8 (amended): a blank input line is emitted only when the emitted
list is non-empty and its last line is non-blank, so blank runs
collapse to at most one blank line — exactly one between non-blank
emitted content, zero at the start of the output or (after the
trailing cleanup) at its end; e.g. four-line input `a`,blank,blank,
blank,`b` yields `a`,blank,`b`. -/
theorem claim_C8 :
    (∀ acc line next?, (stripL line).isEmpty = true →
        flmStep acc line next? = (if needSep acc then [] :: acc else acc))
    ∧ format_line_message ("a\n\n\n\nb".toList) = "a\n\nb".toList := by
  constructor
  · intro acc line next? h
    have hnil : stripL line = [] := by
      cases hq : stripL line with
      | nil => rfl
      | cons d ds => rw [hq] at h; simp at h
    rw [flmStep.eq_def, hnil]
    rw [if_neg (by simp [leadsWith])]
    rw [if_pos (by simp)]
  · decide

/-- Witness for C8: a whitespace-only line after a non-blank emitted
line adds exactly one blank. -/
theorem claim_C8_wit :
    flmStep [['x']] [' ', '\t'] none
      = (if needSep [['x']] then [] :: [['x']] else [['x']]) :=
  claim_C8.1 [['x']] [' ', '\t'] none (by decide)

/-- Counterexample to C8 as stated: the input `a` followed by three
blank lines does NOT keep one blank line in their place — the
trailing cleanup removes it and the output has no blank line. -/
theorem claim_C8_cex :
    format_line_message ("a\n\n\n".toList) = ['a']
    ∧ (splitNL (format_line_message ("a\n\n\n".toList))).countP
        (fun l => (stripL l).isEmpty) = 0 := by
  constructor
  · decide
  · decide


theorem stripL_eq (l : List Char) :
    stripL l = List.rdropWhile pyIsSpace (l.dropWhile pyIsSpace) := rfl

theorem dropWhile_rdropWhile (X : List Char) (hX : X.dropWhile pyIsSpace = X) :
    (List.rdropWhile pyIsSpace X).dropWhile pyIsSpace = List.rdropWhile pyIsSpace X := by
  obtain ⟨t, ht⟩ := List.rdropWhile_prefix pyIsSpace X
  cases hY : List.rdropWhile pyIsSpace X with
  | nil => rfl
  | cons d ds =>
      rw [hY] at ht
      have hXc : X = d :: (ds ++ t) := by rw [← ht]; simp
      have hd : pyIsSpace d = false := by
        rw [hXc, List.dropWhile_cons] at hX
        by_cases hq : pyIsSpace d = true
        · rw [if_pos hq] at hX
          have hlc := congrArg List.length hX
          have hlen := length_dropWhile_le pyIsSpace (ds ++ t)
          simp only [List.length_cons] at hlc
          omega
        · simpa using hq
      rw [List.dropWhile_cons, hd]
      simp

theorem stripL_idem (l : List Char) : stripL (stripL l) = stripL l := by
  rw [stripL_eq (stripL l), stripL_eq l]
  rw [dropWhile_rdropWhile (l.dropWhile pyIsSpace) (List.dropWhile_idempotent pyIsSpace l)]
  rw [List.rdropWhile_idempotent]

theorem mem_dropWhile_sub {α : Type} {c : α} {l : List α} (p : α → Bool) :
    c ∈ l.dropWhile p → c ∈ l := by
  induction l with
  | nil => intro h; simpa using h
  | cons d ds ih =>
      intro h
      rw [List.dropWhile_cons] at h
      by_cases hq : p d = true
      · rw [if_pos hq] at h
        exact List.mem_cons_of_mem d (ih h)
      · rw [if_neg hq] at h
        exact h

theorem mem_stripL {c : Char} {l : List Char} (h : c ∈ stripL l) : c ∈ l := by
  rw [stripL] at h
  rw [List.mem_reverse] at h
  have h2 := mem_dropWhile_sub pyIsSpace h
  rw [List.mem_reverse] at h2
  exact mem_dropWhile_sub pyIsSpace h2

theorem mem_pyRepGo {c : Char} {old new : List Char} :
    ∀ (s : List Char) (n : Nat), c ∈ pyRepGo old new n s → c ∈ s ∨ c ∈ new := by
  intro s
  induction s with
  | nil => intro n h; rw [pyRepGo] at h; simp at h
  | cons d ds ih =>
      intro n h
      match n, h with
      | m + 1, h =>
          rw [pyRepGo] at h
          cases ih m h with
          | inl h2 => exact Or.inl (List.mem_cons_of_mem d h2)
          | inr h2 => exact Or.inr h2
      | 0, h =>
          rw [pyRepGo] at h
          split at h
          · rw [List.mem_append] at h
            cases h with
            | inl h2 => exact Or.inr h2
            | inr h2 =>
                cases ih (old.length - 1) h2 with
                | inl h3 => exact Or.inl (List.mem_cons_of_mem d h3)
                | inr h3 => exact Or.inr h3
          · rw [List.mem_cons] at h
            cases h with
            | inl h2 => exact Or.inl (h2 ▸ List.mem_cons_self d ds)
            | inr h2 =>
                cases ih 0 h2 with
                | inl h3 => exact Or.inl (List.mem_cons_of_mem d h3)
                | inr h3 => exact Or.inr h3

theorem mem_cleanLine {c : Char} {line : List Char} (h : c ∈ cleanLine line) :
    c ∈ line := by
  rw [cleanLine] at h
  split at h
  · exact h
  · cases mem_pyRepGo _ 0 h with
    | inl h2 =>
        cases mem_pyRepGo _ 0 h2 with
        | inl h3 => exact h3
        | inr h3 => simp at h3
    | inr h2 => simp at h2

theorem splitNL_no_nl : ∀ (s : List Char), ∀ l ∈ splitNL s, '\n' ∉ l := by
  intro s
  induction s with
  | nil =>
      intro l hl
      simp only [splitNL] at hl
      simp at hl
      simp [hl]
  | cons c cs ih =>
      intro l hl
      rw [splitNL] at hl
      by_cases hc : c = '\n'
      · rw [if_pos hc] at hl
        rw [List.mem_cons] at hl
        cases hl with
        | inl h => simp [h]
        | inr h => exact ih l h
      · rw [if_neg hc] at hl
        cases hsp : splitNL cs with
        | nil =>
            rw [hsp] at hl
            simp at hl
            subst hl
            intro hmem
            rw [List.mem_singleton] at hmem
            exact hc hmem.symm
        | cons h0 t0 =>
            rw [hsp] at hl
            rw [List.mem_cons] at hl
            cases hl with
            | inl h =>
                subst h
                intro hmem
                rw [List.mem_cons] at hmem
                cases hmem with
                | inl h2 => exact hc h2.symm
                | inr h2 => exact ih h0 (by rw [hsp]; simp) h2
            | inr h => exact ih l (by rw [hsp]; simp [h])

theorem splitNL_single {l : List Char} (h : '\n' ∉ l) : splitNL l = [l] := by
  induction l with
  | nil => rfl
  | cons c cs ih =>
      have hc : ¬ c = '\n' := fun hq => h (by simp [hq])
      rw [splitNL, if_neg hc, ih (fun hq => h (List.mem_cons_of_mem c hq))]

theorem splitNL_append_nl {l : List Char} (x : List Char) (h : '\n' ∉ l) :
    splitNL (l ++ '\n' :: x) = l :: splitNL x := by
  induction l with
  | nil => simp [splitNL]
  | cons c cs ih =>
      have hc : ¬ c = '\n' := fun hq => h (by simp [hq])
      rw [List.cons_append, splitNL, if_neg hc,
        ih (fun hq => h (List.mem_cons_of_mem c hq))]

theorem splitNL_joinNL :
    ∀ (ls : List (List Char)), (∀ l ∈ ls, '\n' ∉ l) → ls ≠ [] →
      splitNL (joinNL ls) = ls := by
  intro ls
  induction ls with
  | nil => intro _ hne; exact absurd rfl hne
  | cons a as ih =>
      intro hnl _
      cases as with
      | nil =>
          have hj : joinNL [a] = a := rfl
          rw [hj]
          rw [splitNL_single (hnl a (by simp))]
      | cons b bs =>
          have hj : joinNL (a :: b :: bs) = a ++ '\n' :: joinNL (b :: bs) := rfl
          rw [hj, splitNL_append_nl _ (hnl a (by simp))]
          rw [ih (fun l hl => hnl l (List.mem_cons_of_mem a hl)) (List.cons_ne_nil b bs)]

theorem flmStep_blank {acc : List (List Char)} {line : List Char}
    (next? : Option (List Char)) (h : stripL line = []) :
    flmStep acc line next? = (if needSep acc then [] :: acc else acc) := by
  rw [flmStep.eq_def, h]
  rw [if_neg (by simp [leadsWith])]
  rw [if_pos (by simp)]

theorem flmStep_trimmed {acc : List (List Char)}
    (hacc : ∀ l ∈ acc, stripL l = l) (line : List Char)
    (next? : Option (List Char)) :
    ∀ l ∈ flmStep acc line next?, stripL l = l := by
  have hpush : ∀ l ∈ (if needSep acc then [] :: acc else acc), stripL l = l := by
    split
    · intro l hl
      rw [List.mem_cons] at hl
      cases hl with
      | inl h => simp [h, stripL]
      | inr h => exact hacc l h
    · exact hacc
  intro l hl
  rw [flmStep.eq_def] at hl
  split at hl
  · rw [List.mem_cons] at hl
    cases hl with
    | inl h => rw [h, hdrLabel]; exact stripL_idem _
    | inr h => exact hpush l h
  · split at hl
    · exact hpush l hl
    · have hcl : ∀ l2 ∈ stripL (cleanLine line) :: acc, stripL l2 = l2 := by
        intro l2 hl2
        rw [List.mem_cons] at hl2
        cases hl2 with
        | inl h => rw [h]; exact stripL_idem _
        | inr h => exact hacc l2 h
      split at hl
      · exact hcl l hl
      · split at hl
        · rw [List.mem_cons] at hl
          cases hl with
          | inl h => simp [h, stripL]
          | inr h => exact hcl l h
        · split at hl
          · rw [List.mem_cons] at hl
            cases hl with
            | inl h => simp [h, stripL]
            | inr h => exact hcl l h
          · exact hcl l hl

theorem flmStep_no_nl {acc : List (List Char)} {line : List Char}
    (hacc : ∀ l ∈ acc, '\n' ∉ l) (hline : '\n' ∉ line)
    (next? : Option (List Char)) :
    ∀ l ∈ flmStep acc line next?, '\n' ∉ l := by
  have hpush : ∀ l ∈ (if needSep acc then [] :: acc else acc), '\n' ∉ l := by
    split
    · intro l hl
      rw [List.mem_cons] at hl
      cases hl with
      | inl h => simp [h]
      | inr h => exact hacc l h
    · exact hacc
  intro l hl
  rw [flmStep.eq_def] at hl
  split at hl
  · rw [List.mem_cons] at hl
    cases hl with
    | inl h =>
        rw [h, hdrLabel]
        intro hmem
        exact hline (mem_dropWhile_sub _ (mem_stripL hmem))
    | inr h => exact hpush l h
  · split at hl
    · exact hpush l hl
    · have hcl : ∀ l2 ∈ stripL (cleanLine line) :: acc, '\n' ∉ l2 := by
        intro l2 hl2
        rw [List.mem_cons] at hl2
        cases hl2 with
        | inl h =>
            rw [h]
            intro hmem
            exact hline (mem_cleanLine (mem_stripL hmem))
        | inr h => exact hacc l2 h
      split at hl
      · exact hcl l hl
      · split at hl
        · rw [List.mem_cons] at hl
          cases hl with
          | inl h => simp [h]
          | inr h => exact hcl l h
        · split at hl
          · rw [List.mem_cons] at hl
            cases hl with
            | inl h => simp [h]
            | inr h => exact hcl l h
          · exact hcl l hl

theorem flmGo_trimmed :
    ∀ (lines acc : List (List Char)), (∀ l ∈ acc, stripL l = l) →
      ∀ l ∈ flmGo acc lines, stripL l = l := by
  intro lines
  induction lines with
  | nil => intro acc hacc l hl; exact hacc l hl
  | cons a as ih =>
      intro acc hacc l hl
      rw [flmGo] at hl
      exact ih _ (flmStep_trimmed hacc a as.head?) l hl

theorem flmGo_no_nl :
    ∀ (lines acc : List (List Char)), (∀ l ∈ acc, '\n' ∉ l) →
      (∀ l ∈ lines, '\n' ∉ l) →
      ∀ l ∈ flmGo acc lines, '\n' ∉ l := by
  intro lines
  induction lines with
  | nil => intro acc hacc _ l hl; exact hacc l hl
  | cons a as ih =>
      intro acc hacc hlines l hl
      rw [flmGo] at hl
      exact ih _ (flmStep_no_nl hacc (hlines a (by simp)) as.head?)
        (fun l2 hl2 => hlines l2 (List.mem_cons_of_mem a hl2)) l hl

theorem flmLines_trimmed (text : List Char) :
    ∀ l ∈ flmLines text, stripL l = l := by
  intro l hl
  rw [flmLines, List.mem_reverse] at hl
  exact flmGo_trimmed (splitNL text) [] (by simp) l
    (mem_dropWhile_sub _ hl)

theorem flmLines_no_nl (text : List Char) :
    ∀ l ∈ flmLines text, '\n' ∉ l := by
  intro l hl
  rw [flmLines, List.mem_reverse] at hl
  exact flmGo_no_nl (splitNL text) [] (by simp) (splitNL_no_nl text) l
    (mem_dropWhile_sub _ hl)

/-- C10: every line of the output of `format_line_message` is empty or
carries no leading and no trailing whitespace — each emitted line is
either a blank separator or produced in stripped form. -/
theorem claim_C10 (text : List Char) :
    ∀ l ∈ splitNL (format_line_message text), stripL l = l := by
  cases h : flmLines text with
  | nil =>
      rw [format_line_message, h]
      intro l hl
      simp only [joinNL, splitNL] at hl
      rw [List.mem_singleton] at hl
      simp [hl, stripL]
  | cons a as =>
      rw [format_line_message]
      rw [splitNL_joinNL (flmLines text) (flmLines_no_nl text) (by rw [h]; simp)]
      exact flmLines_trimmed text


theorem tryOpen_none_nb {c : Char} (cs : List Char) (h : c ≠ '\\') :
    tryOpen (c :: cs) = none := by
  cases cs with
  | nil => rfl
  | cons d ds =>
      rw [tryOpen]
      rw [if_neg (by simp [isOpenerPair, h])]

theorem splitLatex_nb :
    ∀ (s : List Char), (∀ c ∈ s, c ≠ '\\') → splitLatex s = ([], s) := by
  intro s
  induction s with
  | nil => intro _; simp [splitLatex]
  | cons c cs ih =>
      intro h
      rw [splitLatex_neg (tryOpen_none_nb cs (h c (by simp)))]
      rw [ih (fun d hd => h d (List.mem_cons_of_mem c hd))]

theorem extract_nb {s : List Char} (h : ∀ c ∈ s, c ≠ '\\') :
    extract_latex_blocks s = (s, []) := by
  rw [extract_latex_blocks, splitLatex_nb s h]
  rfl

theorem dropWhile_all {p : Char → Bool} :
    ∀ {l : List Char}, (∀ c ∈ l, p c = true) → l.dropWhile p = [] := by
  intro l
  induction l with
  | nil => intro _; rfl
  | cons c cs ih =>
      intro h
      rw [List.dropWhile_cons, if_pos (h c (by simp))]
      exact ih (fun d hd => h d (List.mem_cons_of_mem c hd))

theorem stripL_ws {l : List Char} (h : ∀ c ∈ l, pyIsSpace c = true) :
    stripL l = [] := by
  rw [stripL, dropWhile_all h]
  rfl

theorem splitNL_mem_sub :
    ∀ (s : List Char), ∀ l ∈ splitNL s, ∀ c ∈ l, c ∈ s := by
  intro s
  induction s with
  | nil =>
      intro l hl c hc
      simp only [splitNL] at hl
      rw [List.mem_singleton] at hl
      subst hl
      simp at hc
  | cons d ds ih =>
      intro l hl c hc
      rw [splitNL] at hl
      by_cases hd : d = '\n'
      · rw [if_pos hd] at hl
        rw [List.mem_cons] at hl
        cases hl with
        | inl h => subst h; simp at hc
        | inr h => exact List.mem_cons_of_mem d (ih l h c hc)
      · rw [if_neg hd] at hl
        cases hsp : splitNL ds with
        | nil =>
            rw [hsp] at hl
            rw [List.mem_singleton] at hl
            subst hl
            rw [List.mem_singleton] at hc
            simp [hc]
        | cons h0 t0 =>
            rw [hsp] at hl
            rw [List.mem_cons] at hl
            cases hl with
            | inl h =>
                subst h
                rw [List.mem_cons] at hc
                cases hc with
                | inl h2 => simp [h2]
                | inr h2 =>
                    exact List.mem_cons_of_mem d (ih h0 (by rw [hsp]; simp) c h2)
            | inr h =>
                exact List.mem_cons_of_mem d (ih l (by rw [hsp]; simp [h]) c hc)

theorem flmGo_blank :
    ∀ (lines : List (List Char)), (∀ l ∈ lines, stripL l = []) →
      flmGo [] lines = [] := by
  intro lines
  induction lines with
  | nil => intro _; rfl
  | cons a as ih =>
      intro h
      rw [flmGo, flmStep_blank as.head? (h a (by simp))]
      have : needSep ([] : List (List Char)) = false := rfl
      rw [this]
      simp only [if_false, Bool.false_eq_true]
      exact ih (fun l hl => h l (List.mem_cons_of_mem a hl))

theorem ws_ne_bs {c : Char} (h : pyIsSpace c = true) : c ≠ '\\' := by
  intro hq
  subst hq
  exact absurd h (by decide)

/-- Fully whitespace non-empty input passes the falsy test, extracts
no blocks, and every line collapses to nothing, so the result is the
empty string, not the fallback. -/
theorem format_solution_ws (s : List Char) (hne : s ≠ [])
    (hws : ∀ c ∈ s, pyIsSpace c = true) : format_solution s = [] := by
  rw [format_solution, if_neg hne]
  rw [extract_nb (fun c hc => ws_ne_bs (hws c hc))]
  rw [replaceLoop]
  rw [format_line_message, flmLines]
  rw [flmGo_blank (splitNL s)
    (fun l hl => stripL_ws (fun c hc => hws c (splitNL_mem_sub s l hl c hc)))]
  rfl

/-- C1 (amended): only the genuinely empty input maps to the fixed
fallback message; a whitespace-only non-empty input instead maps to
the empty string (Python's `if not answer` is a falsy test, blank
strings are truthy). -/
theorem claim_C1 :
    format_solution [] = fallbackMsg
    ∧ (∀ s, s ≠ [] → (∀ c ∈ s, pyIsSpace c = true) → format_solution s = []) := by
  constructor
  · rw [format_solution, if_pos rfl]
  · exact format_solution_ws

/-- Witness for C1: the single-space input yields the empty string. -/
theorem claim_C1_wit : format_solution [' '] = [] :=
  claim_C1.2 [' '] (by decide) (by decide)

/-- Counterexample to C1 as stated: the whitespace-only input of one
space does NOT yield the fallback message — it yields the empty
string. -/
theorem claim_C1_cex :
    format_solution [' '] = []
    ∧ format_solution [' '] ≠ fallbackMsg
    ∧ ([' '] : List Char) ≠ []
    ∧ (∀ c ∈ ([' '] : List Char), pyIsSpace c = true) := by
  have h := format_solution_ws [' '] (by decide) (by decide)
  refine ⟨h, ?_, by decide, by decide⟩
  rw [h]
  decide


/-- Witness for C5 at the concrete block from the input backslash,
parenthesis, x, backslash, bracket. -/
theorem claim_C5_wit :
    (∃ o body c,
        (([], ['\\', '(', 'x', '\\', ']']) : List Char × List Char).2
          = '\\' :: o :: (body ++ ['\\', c])
        ∧ (o = '(' ∨ o = '[') ∧ (c = ')' ∨ c = ']') ∧ hasCloser body = false)
    ∧ hasOpener (([], ['\\', '(', 'x', '\\', ']']) : List Char × List Char).1 = false := by
  have ht : tryOpen ['\\', '(', 'x', '\\', ']']
      = some (['\\', '(', 'x', '\\', ']'], []) := by decide
  have h1 : (splitLatex ['\\', '(', 'x', '\\', ']']).1
      = [([], ['\\', '(', 'x', '\\', ']'])] := by
    rw [splitLatex_pos ht]
    simp [splitLatex]
  have hpr : (([], ['\\', '(', 'x', '\\', ']']) : List Char × List Char)
      ∈ (splitLatex ['\\', '(', 'x', '\\', ']']).1 := by
    rw [h1]
    simp
  exact (claim_C5 ['\\', '(', 'x', '\\', ']']).1 _ hpr

/-- Witness for C10 at the concrete header input. -/
theorem claim_C10_wit :
    stripL ("Step 1".toList) = "Step 1".toList :=
  claim_C10 ("## Step 1".toList) ("Step 1".toList) (by decide)

end LlmPy
